import Mathlib

/-!
Verification of the Cherenkov radiation simulation core
(`animation.py` and `cherenkov_simulation.py`).

The per-frame state machine (particle kinematics, trail history, wavefront
emission, aging and expiry) is embedded over exact rationals; the
interference-intensity field and the Cherenkov geometry, which use
transcendental functions, are embedded over the reals.
-/

namespace Cherenkov

/-- A wavefront record: its fixed center and the frame at which it was
emitted (`animation.py` line 148, `{'center': (x, y), 'start_frame': frame}`;
the attached matplotlib circle is display-only and not modelled). -/
structure Wavefront where
  center : ℚ × ℚ
  start_frame : ℕ
deriving DecidableEq

/-- Particle position at a frame (`animation.py` lines 132-133:
`x = frame * 0.1 - 4`, `y = 0`). -/
def positionAtFrame (frame : ℕ) : ℚ × ℚ :=
  ((frame : ℚ) * 0.1 - 4, 0)

/-- Trail update (`animation.py` lines 137-139): append the position, then
drop the oldest entry when the length exceeds 30. -/
def trailPush (trail : List (ℚ × ℚ)) (p : ℚ × ℚ) : List (ℚ × ℚ) :=
  let t := trail ++ [p]
  if t.length > 30 then t.drop 1 else t

/-- Emission step (`animation.py` lines 147-154): every 5 frames, while the
particle is on screen, append a new wavefront at the particle position. -/
def emitStep (frame : ℕ) (pos : ℚ × ℚ) (waves : List Wavefront) :
    List Wavefront :=
  if frame % 5 = 0 ∧ -8 ≤ pos.1 ∧ pos.1 ≤ 8 then
    waves ++ [⟨pos, frame⟩]
  else
    waves

/-- Fade factor of a wavefront of the given age (`animation.py` line 162:
`new_alpha = max(0, 0.2 - age * 0.01)`). -/
def fadeAlpha (age : ℤ) : ℚ :=
  max 0 (0.2 - (age : ℚ) * 0.01)

/-- Removal condition of the aging pass (`animation.py` line 165): the
wavefront is removed when its fade factor drops to at most 0.03 or its
center leaves the extended bound `[-10, 10] × [-8, 8]`. -/
def expireRemove (frame : ℕ) (w : Wavefront) : Bool :=
  decide (fadeAlpha ((frame : ℤ) - (w.start_frame : ℤ)) ≤ 0.03) ||
    decide (w.center.1 < -10) || decide (w.center.1 > 10) ||
    decide (w.center.2 < -8) || decide (w.center.2 > 8)

/-- Aging/expiry pass (`animation.py` lines 157-167): every wavefront is
visited once against a snapshot of the list, and those meeting the removal
condition are removed, which net amounts to a filter. -/
def expireStep (frame : ℕ) (waves : List Wavefront) : List Wavefront :=
  waves.filter (fun w => !expireRemove frame w)

/-- The mutable core state captured by the closures of `simulation`:
the active wavefronts and the particle trail (`animation.py` lines 34-35). -/
structure SimState where
  waves : List Wavefront
  particle_trail : List (ℚ × ℚ)
deriving DecidableEq

/-- One tick of `animate(frame)` (`animation.py` lines 130-167), restricted
to its state effects: compute the particle position, push it on the trail,
run the emission step, then the aging/expiry pass. -/
def tick (frame : ℕ) (s : SimState) : SimState :=
  let pos := positionAtFrame frame
  ⟨expireStep frame (emitStep frame pos s.waves),
   trailPush s.particle_trail pos⟩

/-- State after sequentially processing frames `0, 1, ..., n-1`, starting
from the empty lists set up in `simulation` (`animation.py` lines 34-35,
driven by `FuncAnimation` over frames `0..199`). -/
def run : ℕ → SimState
  | 0 => ⟨[], []⟩
  | n + 1 => tick n (run n)

/-- Parameter validation of the input dialog
(`cherenkov_simulation.py` lines 33-44): reject speeds outside the
permitted intervals, then reject a particle not faster than light in the
medium; on success the parameters are handed to the simulation. -/
def validate_and_run (v_particle c_medium : ℚ) : Except String (ℚ × ℚ) :=
  if ¬(0 < c_medium ∧ c_medium < 1 ∧ 0 < v_particle ∧ v_particle ≤ 1) then
    .error "Speeds must be between 0 and 1"
  else if v_particle ≤ c_medium then
    .error "Particle speed must exceed medium light speed for Cherenkov radiation"
  else
    .ok (v_particle, c_medium)

/-- Whether a validation attempt failed. -/
def isError {α : Type} : Except String α → Bool
  | .error _ => true
  | .ok _ => false

/-- Wavefront centers on the emission band: the particle line `y = 0`
restricted to the on-screen window `[-8, 8]`. -/
def inBand (w : Wavefront) : Prop :=
  w.center.2 = 0 ∧ -8 ≤ w.center.1 ∧ w.center.1 ≤ 8

/-- Invariant of the sequential run after frames `0..n-1`: emission frames
are multiples of 5 spaced at least 5 apart, below `n`, and recent enough to
have survived the fade condition. -/
def wavesInv (n : ℕ) (l : List Wavefront) : Prop :=
  List.Pairwise (fun a b => a.start_frame + 5 ≤ b.start_frame) l ∧
    ∀ w ∈ l, w.start_frame % 5 = 0 ∧ w.start_frame + 1 ≤ n ∧
      n ≤ w.start_frame + 17

noncomputable section

/-- Speed of light in the medium used by `simulation`
(`animation.py` line 24): hardcoded to `0.7`. -/
def c_medium : ℝ := 0.7

/-- Particle speed used by `simulation` (`animation.py` line 25):
hardcoded to `0.9`. -/
def v_particle : ℝ := 0.9

/-- The Cherenkov angle derived by `simulation(v, c)` (`animation.py`
line 26, `theta = np.arccos(c_medium / v_particle)`); the `v` and `c`
arguments of `simulation` do not occur in the computation. -/
def simulation_theta (v c : ℝ) : ℝ := Real.arccos (c_medium / v_particle)

/-- The refractive index derived by `simulation(v, c)` (`animation.py`
line 29, `n_medium = 1 / c_medium`); again independent of `v` and `c`. -/
def simulation_n (v c : ℝ) : ℝ := 1 / c_medium

/-- Spatial damping constant of `compute_intensity` (line 96). -/
def damping : ℝ := 0.1

/-- Wavelength scale of `compute_intensity` (line 97). -/
def wavelength : ℝ := 1.0

/-- Phase propagation speed of `compute_intensity` (line 98). -/
def wave_speed : ℝ := 0.1 * c_medium

/-- x-coordinate of grid column `i`, from `np.linspace(-8, 8, 200)`
(line 42). -/
def xCoord (i : Fin 200) : ℝ := -8 + 16 * ((i : ℕ) : ℝ) / 199

/-- y-coordinate of grid row `j`, from `np.linspace(-6, 6, 150)`
(line 43). -/
def yCoord (j : Fin 150) : ℝ := -6 + 12 * ((j : ℕ) : ℝ) / 149

/-- Viewport test of `compute_intensity` (line 104): wavefronts centered
outside `[-8, 8] × [-6, 6]` are skipped. -/
def inView (c : ℚ × ℚ) : Bool :=
  !(decide (c.1 < -8) || decide (c.1 > 8) ||
    decide (c.2 < -6) || decide (c.2 > 6))

/-- Distance from a sample point to a wavefront center (line 107). -/
def rdist (X Y cx cy : ℝ) : ℝ :=
  Real.sqrt ((X - cx) ^ 2 + (Y - cy) ^ 2)

/-- One wavefront's complex contribution at a sample point
(lines 106-110): damped amplitude times a unit phasor. -/
def waveContrib (frame : ℕ) (w : Wavefront) (X Y : ℝ) : ℂ :=
  let age : ℝ := (frame : ℝ) - (w.start_frame : ℝ)
  let r := rdist X Y ((w.center.1 : ℝ)) ((w.center.2 : ℝ))
  let amplitude := Real.exp (-damping * r) / (r + 0.1)
  let phase := 2 * Real.pi * (r - age * wave_speed) / wavelength
  (amplitude : ℂ) * Complex.exp (Complex.I * (phase : ℂ))

/-- Accumulated complex field `Z` at a sample point (lines 100-110):
sum over the in-view wavefronts. -/
def Zfield (frame : ℕ) (waves : List Wavefront) (X Y : ℝ) : ℂ :=
  ((waves.filter (fun w => inView w.center)).map
    (fun w => waveContrib frame w X Y)).sum

/-- Raw intensity `I = |Z|^2` at grid cell `(i, j)` (line 112). -/
def Ifield (frame : ℕ) (waves : List Wavefront)
    (i : Fin 200) (j : Fin 150) : ℝ :=
  Complex.abs (Zfield frame waves (xCoord i) (yCoord j)) ^ 2

/-- Contrast-transformed intensity `I ** 0.3` (line 114). -/
def Ipow (frame : ℕ) (waves : List Wavefront)
    (i : Fin 200) (j : Fin 150) : ℝ :=
  Ifield frame waves i j ^ (0.3 : ℝ)

/-- Maximum of the contrast-transformed intensity over the whole
200 × 150 grid, `I_norm.max()` (line 115). -/
def Imax (frame : ℕ) (waves : List Wavefront) : ℝ :=
  Finset.univ.sup' Finset.univ_nonempty
    (fun p : Fin 200 × Fin 150 => Ipow frame waves p.1 p.2)

/-- Normalized intensity returned by `compute_intensity` at grid cell
`(i, j)` (lines 112-116): the transformed intensity divided by its grid
maximum plus `1e-6`. -/
def compute_intensity (frame : ℕ) (waves : List Wavefront)
    (i : Fin 200) (j : Fin 150) : ℝ :=
  Ipow frame waves i j / (Imax frame waves + 1e-6)

end

/-! ## Helper lemmas -/

/-- The fold of `trailPush` from the empty trail keeps exactly the last 30
pushed entries. -/
lemma trailPush_foldl (ps : List (ℚ × ℚ)) :
    ps.foldl trailPush [] = ps.drop (ps.length - 30) := by
  induction ps using List.reverseRecOn with
  | nil => simp
  | append_singleton qs p ih =>
    rw [List.foldl_append, List.foldl_cons, List.foldl_nil, ih]
    unfold trailPush
    simp only [List.length_append, List.length_cons, List.length_nil,
      List.length_drop]
    by_cases h : qs.length ≥ 30
    · have hcond : qs.length - (qs.length - 30) + (0 + 1) > 30 := by omega
      simp only [List.length_append, List.length_drop, List.length_cons,
        List.length_nil, if_pos hcond]
      rw [List.drop_append_of_le_length (by simp; omega),
        List.drop_append_of_le_length (by omega), List.drop_drop]
      have hidx : qs.length - 30 + 1 = qs.length + (0 + 1) - 30 := by omega
      rw [hidx]
    · have hcond : ¬(qs.length - (qs.length - 30) + (0 + 1) > 30) := by omega
      simp only [List.length_append, List.length_drop, List.length_cons,
        List.length_nil, if_neg hcond]
      have h1 : qs.length - 30 = 0 := by omega
      have h2 : qs.length + 1 - 30 = 0 := by omega
      rw [h1, h2]
      simp

/-- The fade condition of the aging pass holds exactly from age 17 on. -/
lemma fadeAlpha_le_iff (age : ℤ) : fadeAlpha age ≤ 0.03 ↔ 17 ≤ age := by
  unfold fadeAlpha
  rw [max_le_iff]
  constructor
  · rintro ⟨-, h⟩
    by_contra hlt
    push_neg at hlt
    have h16 : age ≤ 16 := by omega
    have hq : (age : ℚ) ≤ 16 := by exact_mod_cast h16
    nlinarith
  · intro h
    have hq : (17 : ℚ) ≤ (age : ℚ) := by exact_mod_cast h
    constructor
    · norm_num
    · nlinarith

/-! ## Claims -/

/-- C9: the particle position at frame `n` is exactly
`(n * 0.1 - 4, 0)`; in particular frame 0 gives `(-4, 0)` and frame 40
gives `(0, 0)`. The position is a pure function of the frame index. -/
theorem positionAtFrame_spec :
    (∀ n : ℕ, positionAtFrame n = ((n : ℚ) * 0.1 - 4, 0)) ∧
      positionAtFrame 0 = (-4, 0) ∧ positionAtFrame 40 = (0, 0) := by
  refine ⟨fun n => rfl, ?_, ?_⟩
  · norm_num [positionAtFrame]
  · norm_num [positionAtFrame]

/-- C2: initialization fails (with the dialog's ValueError, the spec's
ConfigurationError) exactly when the particle speed does not exceed the
medium light speed or either speed lies outside its permitted interval, and
the error is produced instead of the simulation being started; the valid
pair `(0.9, 0.7)` is accepted and handed to the simulation. -/
theorem validate_and_run_spec :
    (∀ v c : ℚ, isError (validate_and_run v c) = true ↔
      (v ≤ c ∨ ¬(0 < v ∧ v ≤ 1) ∨ ¬(0 < c ∧ c < 1))) ∧
      validate_and_run 0.9 0.7 = .ok (0.9, 0.7) := by
  constructor
  · intro v c
    unfold validate_and_run
    split
    · rename_i h
      simp only [isError, true_iff]
      tauto
    · split
      · rename_i h1 h2
        simp only [isError, true_iff]
        tauto
      · rename_i h1 h2
        simp only [isError, Bool.false_eq_true, false_iff]
        rw [not_not] at h1
        intro hcase
        rcases hcase with h | h | h
        · exact h2 h
        · exact h ⟨h1.2.2.1, h1.2.2.2⟩
        · exact h ⟨h1.1, h1.2.1⟩
  · unfold validate_and_run
    norm_num

/-- C3: the emission step appends exactly one new wavefront, centered at
the particle position and stamped with the current frame, if and only if
the frame index is a multiple of 5 and the particle's x-coordinate lies in
`[-8, 8]`; otherwise it leaves the active set unchanged. -/
theorem emitStep_spec (frame : ℕ) (pos : ℚ × ℚ) (waves : List Wavefront) :
    (emitStep frame pos waves = waves ++ [⟨pos, frame⟩] ↔
      (frame % 5 = 0 ∧ -8 ≤ pos.1 ∧ pos.1 ≤ 8)) ∧
    (emitStep frame pos waves = waves ↔
      ¬(frame % 5 = 0 ∧ -8 ≤ pos.1 ∧ pos.1 ≤ 8)) := by
  unfold emitStep
  split
  · rename_i h
    constructor
    · exact ⟨fun _ => h, fun _ => rfl⟩
    · constructor
      · intro heq
        have := congrArg List.length heq
        simp at this
      · intro hn
        exact absurd h hn
  · rename_i h
    constructor
    · constructor
      · intro heq
        have := congrArg List.length heq
        simp at this
      · intro hc
        exact absurd hc h
    · exact ⟨fun _ => h, fun _ => rfl⟩

/-- C8: the trail history never holds more than 30 positions after any
sequence of pushes starting from the empty trail, and pushing the particle
positions of frames 0 through 49 leaves exactly the positions of frames 20
through 49, in frame order. -/
theorem trailHistory_spec :
    (∀ ps : List (ℚ × ℚ), (ps.foldl trailPush []).length ≤ 30) ∧
      (List.range 50).foldl (fun t f => trailPush t (positionAtFrame f)) []
        = (List.range 30).map (fun k => positionAtFrame (20 + k)) := by
  constructor
  · intro ps
    rw [trailPush_foldl]
    simp only [List.length_drop]
    omega
  · rw [← List.foldl_map, trailPush_foldl]
    simp only [List.length_map, List.length_range]
    rw [← List.map_drop]
    have hdrop : (List.range 50).drop (50 - 30)
        = (List.range 30).map (fun k => 20 + k) := by decide
    rw [hdrop, List.map_map]
    rfl

/-- C4: the fade factor is strictly decreasing over the ages a wavefront
can reach (it is removed at age 17), the fade condition
`fadeAlpha ≤ 0.03` holds exactly from age 17 on (so an in-bounds wavefront
aged 16 or less is kept), and for a wavefront whose center lies inside the
extended bound the aging pass removes it exactly when its age is at
least 17. -/
theorem fadeAlpha_expiry_spec :
    (∀ a b : ℤ, a < b → b ≤ 17 → fadeAlpha b < fadeAlpha a) ∧
    (∀ a : ℤ, fadeAlpha a ≤ 0.03 ↔ 17 ≤ a) ∧
    (∀ (frame : ℕ) (w : Wavefront),
      -10 ≤ w.center.1 → w.center.1 ≤ 10 → -8 ≤ w.center.2 → w.center.2 ≤ 8 →
      (expireRemove frame w = true ↔
        17 ≤ (frame : ℤ) - (w.start_frame : ℤ))) := by
  refine ⟨?_, fadeAlpha_le_iff, ?_⟩
  · intro a b hab hb17
    unfold fadeAlpha
    have hqa : (a : ℚ) ≤ 16 := by exact_mod_cast (by omega : a ≤ 16)
    have hqb : (b : ℚ) ≤ 17 := by exact_mod_cast hb17
    have hqab : (a : ℚ) < (b : ℚ) := by exact_mod_cast hab
    rw [max_eq_right (by nlinarith), max_eq_right (by nlinarith)]
    nlinarith
  · intro frame w h1 h2 h3 h4
    unfold expireRemove
    simp only [Bool.or_eq_true, decide_eq_true_eq]
    rw [fadeAlpha_le_iff]
    constructor
    · rintro (((((h | h) | h) | h) | h))
      · exact h
      · exact absurd h (not_lt.mpr h1)
      · exact absurd h (not_lt.mpr h2)
      · exact absurd h (not_lt.mpr h3)
      · exact absurd h (not_lt.mpr h4)
    · intro h
      left; left; left; left
      exact h

/-- Witness for C4 at concrete ages 16 and 17. -/
theorem fadeAlpha_expiry_witness : fadeAlpha 17 < fadeAlpha 16 :=
  fadeAlpha_expiry_spec.1 16 17 (by norm_num) (by norm_num)

/-- The emission step only creates wavefronts on the emission band. -/
lemma emitStep_inBand (frame : ℕ) (pos : ℚ × ℚ) (waves : List Wavefront)
    (hpos : pos.2 = 0) (hw : ∀ w ∈ waves, inBand w) :
    ∀ w ∈ emitStep frame pos waves, inBand w := by
  intro w hmem
  unfold emitStep at hmem
  split at hmem
  · rename_i h
    rcases List.mem_append.mp hmem with h1 | h1
    · exact hw w h1
    · rcases List.mem_singleton.mp h1 with rfl
      exact ⟨hpos, h.2.1, h.2.2⟩
  · exact hw w hmem

/-- Every wavefront of every reachable post-tick state sits on the
emission band. -/
lemma run_inBand : ∀ n : ℕ, ∀ w ∈ (run n).waves, inBand w := by
  intro n
  induction n with
  | zero => intro w hw; simp [run] at hw
  | succ m ih =>
    intro w hw
    have hw2 : w ∈ emitStep m (positionAtFrame m) (run m).waves :=
      (List.mem_filter.mp hw).1
    exact emitStep_inBand m (positionAtFrame m) (run m).waves rfl ih w hw2

/-- A center on the emission band is inside the extended expiry bound, so
none of the out-of-bound disjuncts of the removal condition can fire. -/
lemma inBand_expireRemove (frame : ℕ) (w : Wavefront) (hb : inBand w) :
    expireRemove frame w =
      decide (fadeAlpha ((frame : ℤ) - (w.start_frame : ℤ)) ≤ 0.03) := by
  obtain ⟨hy, hx1, hx2⟩ := hb
  unfold expireRemove
  have e1 : decide (w.center.1 < -10) = false := by
    simp only [decide_eq_false_iff_not, not_lt]; linarith
  have e2 : decide (w.center.1 > 10) = false := by
    simp only [decide_eq_false_iff_not, not_lt]; linarith
  have e3 : decide (w.center.2 < -8) = false := by
    simp only [decide_eq_false_iff_not, not_lt]; rw [hy]; norm_num
  have e4 : decide (w.center.2 > 8) = false := by
    simp only [decide_eq_false_iff_not, not_lt]; rw [hy]; norm_num
  rw [e1, e2, e3, e4]
  simp

/-- The run invariant holds for every reachable post-tick state. -/
lemma run_wavesInv : ∀ n : ℕ, wavesInv n (run n).waves := by
  intro n
  induction n with
  | zero => exact ⟨List.Pairwise.nil, by intro w hw; simp [run] at hw⟩
  | succ m ih =>
    obtain ⟨hpair, hmem⟩ := ih
    have hstep : ∀ w ∈ emitStep m (positionAtFrame m) (run m).waves,
        w.start_frame % 5 = 0 ∧ w.start_frame ≤ m := by
      intro w hw
      unfold emitStep at hw
      split at hw
      · rename_i hc
        rcases List.mem_append.mp hw with h1 | h1
        · exact ⟨(hmem w h1).1, by have := (hmem w h1).2.1; omega⟩
        · rcases List.mem_singleton.mp h1 with rfl
          exact ⟨hc.1, le_refl m⟩
      · exact ⟨(hmem w hw).1, by have := (hmem w hw).2.1; omega⟩
    have hpair2 : List.Pairwise
        (fun a b => a.start_frame + 5 ≤ b.start_frame)
        (emitStep m (positionAtFrame m) (run m).waves) := by
      unfold emitStep
      split
      · rename_i hc
        rw [List.pairwise_append]
        refine ⟨hpair, List.pairwise_singleton _ _, ?_⟩
        intro a ha b hb
        rcases List.mem_singleton.mp hb with rfl
        have h5a : a.start_frame % 5 = 0 := (hmem a ha).1
        have hlt : a.start_frame + 1 ≤ m := (hmem a ha).2.1
        have h5m : m % 5 = 0 := hc.1
        simp only
        omega
      · exact hpair
    constructor
    · exact List.Pairwise.sublist (List.filter_sublist _) hpair2
    · intro w hw
      obtain ⟨hw2, hkeep⟩ := List.mem_filter.mp hw
      have hkeep2 : expireRemove m w = false := by
        simpa using hkeep
      have hfade : ¬(fadeAlpha ((m : ℤ) - (w.start_frame : ℤ)) ≤ 0.03) := by
        intro hcontra
        unfold expireRemove at hkeep2
        simp only [Bool.or_eq_false_iff, decide_eq_false_iff_not] at hkeep2
        exact hkeep2.1.1.1.1 hcontra
      rw [fadeAlpha_le_iff] at hfade
      have hage : (m : ℤ) - (w.start_frame : ℤ) ≤ 16 := by omega
      obtain ⟨h5, hle⟩ := hstep w hw2
      exact ⟨h5, by omega, by omega⟩

/-- A list of naturals that pairwise increase by at least 5 and all lie in
an interval of width `d` has at most `(d + 5) / 5` elements. -/
lemma gap5_length : ∀ (l : List ℕ) (lo d : ℕ),
    l.Pairwise (fun a b => a + 5 ≤ b) → (∀ x ∈ l, lo ≤ x ∧ x ≤ lo + d) →
    5 * l.length ≤ d + 5 := by
  intro l
  induction l with
  | nil => intro lo d _ _; simp
  | cons a t ih =>
    intro lo d hp hb
    obtain ⟨ha, ht⟩ := List.pairwise_cons.mp hp
    by_cases hd : 5 ≤ d
    · have hbt : ∀ x ∈ t, a + 5 ≤ x ∧ x ≤ (a + 5) + (d - 5) := by
        intro x hx
        refine ⟨ha x hx, ?_⟩
        have h1 := (hb x (List.mem_cons_of_mem a hx)).2
        have h2 := (hb a (List.mem_cons_self a t)).1
        omega
      have := ih (a + 5) (d - 5) ht hbt
      simp only [List.length_cons]
      omega
    · cases t with
      | nil => simp only [List.length_cons, List.length_nil]; omega
      | cons b t2 =>
        exfalso
        have hab : a + 5 ≤ b := ha b (List.mem_cons_self b t2)
        have h1 := (hb a (List.mem_cons_self a _)).1
        have h2 := (hb b (List.mem_cons_of_mem a (List.mem_cons_self b t2))).2
        omega

/-- C7: in every reachable state of the sequential run, every active
wavefront's center lies on the line `y = 0` with `x ∈ [-8, 8]`, so the
extended-bound branch of the removal condition is never satisfied and the
removal decision of the aging pass reduces to the fade condition alone,
including on the list the aging pass actually inspects (the post-emission
list of the current tick). -/
theorem reachable_wavefronts_spec :
    ∀ n : ℕ,
      (∀ w ∈ (run n).waves,
        (w.center.2 = 0 ∧ -8 ≤ w.center.1 ∧ w.center.1 ≤ 8) ∧
        ¬(w.center.1 < -10 ∨ w.center.1 > 10 ∨
          w.center.2 < -8 ∨ w.center.2 > 8)) ∧
      (∀ w ∈ emitStep n (positionAtFrame n) (run n).waves,
        expireRemove n w =
          decide (fadeAlpha ((n : ℤ) - (w.start_frame : ℤ)) ≤ 0.03)) := by
  intro n
  constructor
  · intro w hw
    obtain ⟨hy, hx1, hx2⟩ := run_inBand n w hw
    refine ⟨⟨hy, hx1, hx2⟩, ?_⟩
    rintro (h | h | h | h)
    · linarith
    · linarith
    · rw [hy] at h; norm_num at h
    · rw [hy] at h; norm_num at h
  · intro w hw
    exact inBand_expireRemove n w
      (emitStep_inBand n (positionAtFrame n) (run n).waves rfl
        (run_inBand n) w hw)

/-- Witness for C7 at the first tick: the wavefront emitted at frame 0. -/
theorem reachable_wavefronts_witness :
    expireRemove 0 ⟨((-4 : ℚ), 0), 0⟩ =
      decide (fadeAlpha ((0 : ℤ) - ((0 : ℕ) : ℤ)) ≤ 0.03) :=
  (reachable_wavefronts_spec 0).2 ⟨((-4 : ℚ), 0), 0⟩ (by
    norm_num [emitStep, positionAtFrame, run])

/-- C10: after the emission and aging steps of any tick (and initially),
the active wavefront set of the sequential run holds at most 4 wavefronts,
so each frame's intensity computation sums over at most 4 sources. -/
theorem active_waves_at_most_four : ∀ n : ℕ, (run n).waves.length ≤ 4 := by
  intro n
  obtain ⟨hpair, hmem⟩ := run_wavesInv n
  have hlist := gap5_length ((run n).waves.map Wavefront.start_frame)
    (n - 17) 16 (List.pairwise_map.mpr hpair) ?_
  · rw [List.length_map] at hlist
    omega
  · intro x hx
    obtain ⟨w, hw, rfl⟩ := List.mem_map.mp hx
    have := hmem w hw
    omega

/-- The raw intensity is a squared magnitude, hence nonnegative. -/
lemma Ifield_nonneg (frame : ℕ) (waves : List Wavefront)
    (i : Fin 200) (j : Fin 150) : 0 ≤ Ifield frame waves i j := by
  unfold Ifield
  positivity

/-- The contrast-transformed intensity is nonnegative. -/
lemma Ipow_nonneg (frame : ℕ) (waves : List Wavefront)
    (i : Fin 200) (j : Fin 150) : 0 ≤ Ipow frame waves i j :=
  Real.rpow_nonneg (Ifield_nonneg frame waves i j) _

/-- Every grid cell's transformed intensity is at most the grid maximum. -/
lemma Ipow_le_Imax (frame : ℕ) (waves : List Wavefront)
    (i : Fin 200) (j : Fin 150) :
    Ipow frame waves i j ≤ Imax frame waves :=
  Finset.le_sup'
    (fun p : Fin 200 × Fin 150 => Ipow frame waves p.1 p.2)
    (Finset.mem_univ (i, j))

/-- With no active wavefronts the transformed intensity vanishes. -/
lemma Ipow_empty (frame : ℕ) (i : Fin 200) (j : Fin 150) :
    Ipow frame [] i j = 0 := by
  have hz : Zfield frame [] (xCoord i) (yCoord j) = 0 := by
    unfold Zfield
    simp
  unfold Ipow Ifield
  rw [hz, map_zero, zero_pow (by norm_num : (2 : ℕ) ≠ 0)]
  exact Real.zero_rpow (by norm_num)

/-- With no active wavefronts the grid maximum is zero. -/
lemma Imax_empty (frame : ℕ) : Imax frame [] = 0 := by
  have hf : (fun p : Fin 200 × Fin 150 => Ipow frame [] p.1 p.2)
      = fun _ => (0 : ℝ) := funext fun p => Ipow_empty frame p.1 p.2
  unfold Imax
  rw [hf, Finset.sup'_const]

/-- C1 (counter-evidence): `simulation` derives its Cherenkov angle and
refractive index from the hardcoded pair `(v, c) = (0.9, 0.7)`, not from
its arguments: for every argument pair the derived values are
`arccos(7/9)` and `10/7`, and at the valid parameters `v = 1, c = 1/2`
these differ from the claimed `arccos(c/v)` and `1/c`. -/
theorem simulation_geometry_hardcoded :
    (∀ v c : ℝ, simulation_theta v c = Real.arccos (7 / 9) ∧
      simulation_n v c = 10 / 7) ∧
    simulation_theta 1 (1 / 2) ≠ Real.arccos ((1 / 2) / 1) ∧
    simulation_n 1 (1 / 2) ≠ 1 / (1 / 2) := by
  have h79 : c_medium / v_particle = 7 / 9 := by
    unfold c_medium v_particle
    norm_num
  have hmain : ∀ v c : ℝ, simulation_theta v c = Real.arccos (7 / 9) ∧
      simulation_n v c = 10 / 7 := by
    intro v c
    constructor
    · unfold simulation_theta
      rw [h79]
    · unfold simulation_n c_medium
      norm_num
  refine ⟨hmain, ?_, ?_⟩
  · rw [(hmain 1 (1 / 2)).1]
    intro h
    have h1 : Real.cos (Real.arccos (7 / 9)) = 7 / 9 :=
      Real.cos_arccos (by norm_num) (by norm_num)
    have h2 : Real.cos (Real.arccos ((1 / 2) / 1)) = (1 / 2) / 1 :=
      Real.cos_arccos (by norm_num) (by norm_num)
    rw [h, h2] at h1
    norm_num at h1
  · rw [(hmain 1 (1 / 2)).2]
    norm_num

/-- C5: for any frame and any nonempty active wavefront set, every cell of
the normalized 200 × 150 intensity grid lies in `[0, 1]`, by the
`max + 1e-6` normalization. -/
theorem compute_intensity_bounded :
    ∀ (frame : ℕ) (waves : List Wavefront), waves ≠ [] →
      ∀ (i : Fin 200) (j : Fin 150),
        0 ≤ compute_intensity frame waves i j ∧
          compute_intensity frame waves i j ≤ 1 := by
  intro frame waves _ i j
  have h0 := Ipow_nonneg frame waves i j
  have hle := Ipow_le_Imax frame waves i j
  have heps : (0 : ℝ) < 1e-6 := by norm_num
  have hden : (0 : ℝ) < Imax frame waves + 1e-6 := by linarith
  unfold compute_intensity
  refine ⟨div_nonneg h0 hden.le, ?_⟩
  rw [div_le_one hden]
  linarith

/-- Witness for C5 on a one-wavefront set at the grid corner. -/
theorem compute_intensity_bounded_witness :
    0 ≤ compute_intensity 0 [⟨(0, 0), 0⟩] 0 0 ∧
      compute_intensity 0 [⟨(0, 0), 0⟩] 0 0 ≤ 1 :=
  compute_intensity_bounded 0 [⟨(0, 0), 0⟩] (by simp) 0 0

/-- C6: the intensity computation is total: with no active wavefronts it
returns the all-zero field, the normalization denominator is always
strictly positive (the `1e-6` guard), and the per-sample amplitude
denominator `r + 0.1` is always strictly positive even at `r = 0`. -/
theorem compute_intensity_total :
    (∀ (frame : ℕ) (i : Fin 200) (j : Fin 150),
      compute_intensity frame [] i j = 0) ∧
    (∀ (frame : ℕ) (waves : List Wavefront),
      0 < Imax frame waves + 1e-6) ∧
    (∀ X Y cx cy : ℝ, 0 < rdist X Y cx cy + 0.1) := by
  refine ⟨?_, ?_, ?_⟩
  · intro frame i j
    unfold compute_intensity
    rw [Ipow_empty, zero_div]
  · intro frame waves
    have h0 := Ipow_nonneg frame waves 0 0
    have hle := Ipow_le_Imax frame waves 0 0
    have heps : (0 : ℝ) < 1e-6 := by norm_num
    linarith
  · intro X Y cx cy
    have hs := Real.sqrt_nonneg ((X - cx) ^ 2 + (Y - cy) ^ 2)
    have h01 : (0 : ℝ) < 0.1 := by norm_num
    unfold rdist
    linarith

end Cherenkov
